import Mathlib

/-!
Verification development for the Metadata-Sniffer repository.

Shallow embedding of the crawl-and-extract pipeline:
  * `src/extractor.py`  — `MetadataExtractor` (canonicalizer, traverser, scheduler),
  * `src/exporters.py`  — `create_forensic_hash_data` (forensic fingerprint data),
  * `web_app.py`        — `run_extraction` and the control endpoints (job state machine).

Python dictionaries coming from the Drive API are embedded as structures of
`Option`-typed fields (a missing dictionary key is `none`).  Python strings are
Lean `String`s; `str.strip`, `str.upper`, `str.split('/')[-1]` and string
comparison are re-implemented over `String.data` so that every definition
evaluates inside the kernel.
-/

namespace MetadataSniffer

/-! ### Python string primitives -/

/-- Python `str.strip()`: drop whitespace from both ends. -/
def pyStrip (s : String) : String :=
  ⟨((s.data.dropWhile Char.isWhitespace).reverse.dropWhile Char.isWhitespace).reverse⟩

/-- ASCII uppercase of one character (Python `str.upper` restricted to ASCII,
which covers every MIME subtype this code sees). -/
def asciiUpperChar (c : Char) : Char :=
  if h : 97 ≤ c.toNat ∧ c.toNat ≤ 122 then
    Char.ofNat (c.toNat - 32)
  else c

/-- Python `str.upper()` (ASCII fragment). -/
def asciiUpper (s : String) : String := ⟨s.data.map asciiUpperChar⟩

/-- Python `s.split('/')[-1]`: the suffix after the last `/` (the whole string
when no `/` occurs; the empty string when `s` ends with `/`). -/
def afterLastSlash (s : String) : String :=
  ⟨(s.data.reverse.takeWhile (fun c => c ≠ '/')).reverse⟩

/-- Lexicographic comparison of code-point lists: Python `str.__le__`. -/
def charListLe : List Char → List Char → Bool
  | [], _ => true
  | _ :: _, [] => false
  | a :: as, b :: bs =>
    if a.toNat < b.toNat then true
    else if b.toNat < a.toNat then false
    else charListLe as bs

/-- Python `a <= b` on strings (code-point lexicographic order). -/
def pyStrLe (a b : String) : Bool := charListLe a.data b.data

theorem charListLe_cons (x y : Char) (xs ys : List Char) :
    charListLe (x :: xs) (y :: ys) = true ↔
      (x.toNat < y.toNat ∨ (x.toNat = y.toNat ∧ charListLe xs ys = true)) := by
  by_cases h1 : x.toNat < y.toNat
  · simp [charListLe, h1]
  · by_cases h2 : y.toNat < x.toNat
    · simp only [charListLe, if_neg h1, if_pos h2]
      constructor
      · intro h; cases h
      · rintro (h | ⟨h, -⟩) <;> omega
    · have hxy : x.toNat = y.toNat := by omega
      simp [charListLe, h1, h2, hxy]

theorem charListLe_total : ∀ a b, charListLe a b = true ∨ charListLe b a = true := by
  intro a
  induction a with
  | nil => intro b; left; rfl
  | cons x xs ih =>
    intro b
    cases b with
    | nil => right; rfl
    | cons y ys =>
      rw [charListLe_cons, charListLe_cons]
      rcases Nat.lt_trichotomy x.toNat y.toNat with h | h | h
      · left; exact Or.inl h
      · rcases ih ys with h3 | h3
        · left; exact Or.inr ⟨h, h3⟩
        · right; exact Or.inr ⟨h.symm, h3⟩
      · right; exact Or.inl h

theorem charListLe_trans : ∀ a b c, charListLe a b = true → charListLe b c = true →
    charListLe a c = true := by
  intro a
  induction a with
  | nil => intro b c _ _; rfl
  | cons x xs ih =>
    intro b c hab hbc
    cases b with
    | nil => simp [charListLe] at hab
    | cons y ys =>
      cases c with
      | nil => simp [charListLe] at hbc
      | cons z zs =>
        rw [charListLe_cons] at hab hbc ⊢
        rcases hab with h1 | ⟨h1, h1'⟩
        · rcases hbc with h2 | ⟨h2, -⟩
          · exact Or.inl (by omega)
          · exact Or.inl (by omega)
        · rcases hbc with h2 | ⟨h2, h2'⟩
          · exact Or.inl (by omega)
          · exact Or.inr ⟨by omega, ih ys zs h1' h2'⟩

theorem char_toNat_inj {a b : Char} (h : a.toNat = b.toNat) : a = b := by
  have ha := Char.ofNat_toNat a
  rw [← ha, h, Char.ofNat_toNat]

theorem charListLe_antisymm : ∀ a b, charListLe a b = true → charListLe b a = true →
    a = b := by
  intro a
  induction a with
  | nil =>
    intro b _ hba
    cases b with
    | nil => rfl
    | cons y ys => simp [charListLe] at hba
  | cons x xs ih =>
    intro b hab hba
    cases b with
    | nil => simp [charListLe] at hab
    | cons y ys =>
      rw [charListLe_cons] at hab hba
      have hxy : x.toNat = y.toNat := by
        rcases hab with h1 | ⟨h1, -⟩ <;> rcases hba with h2 | ⟨h2, -⟩ <;> omega
      rcases hab with h1 | ⟨-, h1'⟩
      · omega
      · rcases hba with h2 | ⟨-, h2'⟩
        · omega
        · rw [char_toNat_inj hxy, ih ys h1' h2']

theorem pyStrLe_total (a b : String) : pyStrLe a b = true ∨ pyStrLe b a = true :=
  charListLe_total a.data b.data

theorem pyStrLe_trans {a b c : String} (h1 : pyStrLe a b = true) (h2 : pyStrLe b c = true) :
    pyStrLe a c = true :=
  charListLe_trans a.data b.data c.data h1 h2

theorem pyStrLe_antisymm {a b : String} (h1 : pyStrLe a b = true) (h2 : pyStrLe b a = true) :
    a = b := by
  cases a; cases b
  exact congrArg String.mk (charListLe_antisymm _ _ h1 h2)

/-! ### Data model

`RawItem` embeds the Google Drive API file resource as consumed by
`MetadataExtractor` (`src/extractor.py`): every dictionary access in the Python
code is a `.get` with a default, so every field is optional. -/

structure DriveUser where
  emailAddress : Option String
  displayName : Option String
deriving DecidableEq

structure DrivePermission where
  type : Option String
  role : Option String
deriving DecidableEq

structure RawItem where
  id : Option String
  name : Option String
  mimeType : Option String
  createdTime : Option String
  modifiedTime : Option String
  viewedByMeTime : Option String
  size : Option String
  owners : List DriveUser
  lastModifyingUser : Option DriveUser
  sharingUser : Option DriveUser
  webViewLink : Option String
  permissions : List DrivePermission
  parents : List String
  md5Checksum : Option String
  version : Option String
  shared : Option Bool
  trashed : Option Bool
  starred : Option Bool
  description : Option String
deriving DecidableEq

/-- A `RawItem` with every dictionary key absent. -/
def emptyRawItem : RawItem :=
  { id := none, name := none, mimeType := none, createdTime := none,
    modifiedTime := none, viewedByMeTime := none, size := none, owners := [],
    lastModifyingUser := none, sharingUser := none, webViewLink := none,
    permissions := [], parents := [], md5Checksum := none, version := none,
    shared := none, trashed := none, starred := none, description := none }

/-- `FileRecord` is the dictionary built by
`MetadataExtractor.extract_file_metadata` (`src/extractor.py:142-202`),
field for field. -/
structure FileRecord where
  id : String
  name : String
  mime_type : String
  file_type : String
  creation_date : Option String
  modification_date : Option String
  last_viewed_date : Option String
  creation_date_raw : String
  modification_date_raw : String
  size_bytes : String
  size_formatted : String
  owner_email : String
  owner_name : String
  last_modifier_email : String
  last_modifier_name : String
  sharing_user_email : String
  full_path : String
  share_link : String
  shared : Bool
  trashed : Bool
  starred : Bool
  description : String
  md5_checksum : String
  version : String
  permissions : String
  permission_count : Nat
  parents : String
deriving DecidableEq

/-! ### Canonicalizer (`src/extractor.py`) -/

/-- Checks that the character list has the shape
`DDDD-DD-DDTDD:DD:DD...` of an ISO-8601 timestamp, which is what
`datetime.fromisoformat` accepts for the Drive wire format. -/
def isoShape (l : List Char) : Bool :=
  match l with
  | y1 :: y2 :: y3 :: y4 :: d1 :: m1 :: m2 :: d2 :: dd1 :: dd2 :: t ::
      h1 :: h2 :: c1 :: mi1 :: mi2 :: c2 :: s1 :: s2 :: _ =>
    y1.isDigit && y2.isDigit && y3.isDigit && y4.isDigit && d1 = '-' &&
    m1.isDigit && m2.isDigit && d2 = '-' && dd1.isDigit && dd2.isDigit &&
    t = 'T' && h1.isDigit && h2.isDigit && c1 = ':' && mi1.isDigit &&
    mi2.isDigit && c2 = ':' && s1.isDigit && s2.isDigit
  | _ => false

/-- `MetadataExtractor.format_datetime`: `None`/empty stays `None`; a parseable
ISO-8601 string `YYYY-MM-DDTHH:MM:SS…` is reformatted to
`YYYY-MM-DD HH:MM:SS UTC`; a malformed string is returned verbatim (the
`except` branch). -/
def format_datetime (dt_string : Option String) : Option String :=
  match dt_string with
  | none => none
  | some s =>
    if s = ("") then none
    else if isoShape s.data then
      some ⟨(s.data.take 10) ++ [' '] ++ (s.data.drop 11).take 8 ++ [' ', 'U', 'T', 'C']⟩
    else some s

/-- Python `int(s)` on a decimal string: optional surrounding whitespace,
optional sign, at least one digit; anything else raises (modelled as `none`). -/
def pyParseInt (s : String) : Option Int :=
  let l := (pyStrip s).data
  let core : List Char → Option Nat := fun ds =>
    if ds = [] then none
    else if ds.all Char.isDigit then
      some (ds.foldl (fun acc c => acc * 10 + (c.toNat - 48)) 0)
    else none
  match l with
  | '-' :: rest => (core rest).map (fun n => -(n : Int))
  | '+' :: rest => (core rest).map (fun n => (n : Int))
  | _ => (core l).map (fun n => (n : Int))

/-- Two-decimal rendering of a rational, as Python `f-string` `:.2f` does for
the exact values reached here (ties are approximated by half-up rounding;
the Python code computes with binary floats, a presentation-only detail). -/
def formatTwoDecimals (q : ℚ) : String :=
  let n : Int := ⌊q * 100 + 1 / 2⌋
  let sign := if n < 0 then ("-") else ("")
  let m := n.natAbs
  let frac := m % 100
  let fracStr := (if frac < 10 then ("0") else ("")) ++ toString frac
  sign ++ toString (m / 100) ++ (".") ++ fracStr

/-- The unit loop of `MetadataExtractor.format_size`: divide by 1024 until the
value fits the current unit. -/
def formatSizeLoop (q : ℚ) : List String → String
  | [] => formatTwoDecimals q ++ (" PB")
  | u :: rest =>
    if q < 1024 then formatTwoDecimals q ++ (" ") ++ u
    else formatSizeLoop (q / 1024) rest

/-- `MetadataExtractor.format_size`: `None`/empty → `"N/A"`; a non-integer
string is returned verbatim (the `except` branch); an integer is scaled
through `B, KB, MB, GB, TB` (then `PB`). -/
def format_size (size_bytes : Option String) : String :=
  match size_bytes with
  | none => ("N/A")
  | some s =>
    if s = ("") then ("N/A")
    else
      match pyParseInt s with
      | none => s
      | some n => formatSizeLoop (n : ℚ) [("B"), ("KB"), ("MB"), ("GB"), ("TB")]

/-- `MetadataExtractor._get_file_type`: fixed MIME mapping with an
uppercased-subtype fallback. -/
def get_file_type (mime_type : String) : String :=
  if mime_type = ("application/vnd.google-apps.folder") then ("Folder")
  else if mime_type = ("application/vnd.google-apps.document") then ("Google Docs")
  else if mime_type = ("application/vnd.google-apps.spreadsheet") then ("Google Sheets")
  else if mime_type = ("application/vnd.google-apps.presentation") then ("Google Slides")
  else if mime_type = ("application/pdf") then ("PDF")
  else if mime_type = ("image/jpeg") then ("JPEG Image")
  else if mime_type = ("image/png") then ("PNG Image")
  else if mime_type = ("application/vnd.openxmlformats-officedocument.wordprocessingml.document") then ("Word")
  else if mime_type = ("application/vnd.openxmlformats-officedocument.spreadsheetml.sheet") then ("Excel")
  else if mime_type = ("text/plain") then ("Text")
  else asciiUpper (afterLastSlash mime_type)

/-- `MetadataExtractor.get_file_path`: path resolution is disabled in the
source; the function returns the bare file name immediately. -/
def get_file_path (_file_id : Option String) (file_name : String) : String :=
  file_name

/-- `MetadataExtractor.extract_file_metadata` (`src/extractor.py:142-202`). -/
def extract_file_metadata (file : RawItem) : FileRecord :=
  let owner_email := match file.owners with
    | [] => ("N/A")
    | o :: _ => o.emailAddress.getD ("N/A")
  let owner_name := match file.owners with
    | [] => ("N/A")
    | o :: _ => o.displayName.getD ("N/A")
  let lmu := file.lastModifyingUser
  let last_modifier_email := (lmu.bind DriveUser.emailAddress).getD ("N/A")
  let last_modifier_name := (lmu.bind DriveUser.displayName).getD ("N/A")
  let sharing_user_email := (file.sharingUser.bind DriveUser.emailAddress).getD ("N/A")
  let file_path := get_file_path file.id (file.name.getD ("Unknown"))
  let permission_types := file.permissions.map
    (fun p => p.type.getD ("unknown") ++ (":") ++ p.role.getD ("unknown"))
  { id := file.id.getD ("N/A"),
    name := file.name.getD ("N/A"),
    mime_type := file.mimeType.getD ("N/A"),
    file_type := get_file_type (file.mimeType.getD ("")),
    creation_date := format_datetime file.createdTime,
    modification_date := format_datetime file.modifiedTime,
    last_viewed_date := format_datetime file.viewedByMeTime,
    creation_date_raw := file.createdTime.getD ("N/A"),
    modification_date_raw := file.modifiedTime.getD ("N/A"),
    size_bytes := file.size.getD ("0"),
    size_formatted := format_size file.size,
    owner_email := owner_email,
    owner_name := owner_name,
    last_modifier_email := last_modifier_email,
    last_modifier_name := last_modifier_name,
    sharing_user_email := sharing_user_email,
    full_path := file_path,
    share_link := file.webViewLink.getD ("N/A"),
    shared := file.shared.getD false,
    trashed := file.trashed.getD false,
    starred := file.starred.getD false,
    description := file.description.getD (""),
    md5_checksum := file.md5Checksum.getD ("N/A"),
    version := file.version.getD ("N/A"),
    permissions := if permission_types = [] then ("N/A")
      else String.intercalate ("; ") permission_types,
    permission_count := file.permissions.length,
    parents := String.intercalate ("; ") file.parents }

/-- `MetadataExtractor._process_file`: wraps `extract_file_metadata` in a
`try/except` that downgrades any exception to `None`.  In this typed embedding
`extract_file_metadata` is total, so the result is always `some`. -/
def process_file (file : RawItem) : Option FileRecord :=
  some (extract_file_metadata file)

/-! ### Forensic fingerprint data (`src/exporters.py:37-109`)

`create_forensic_hash_data` keeps ten fields per record, canonicalizes every
value to a string (strings are stripped, booleans become `"true"/"false"`),
sorts records by raw `id` (Python `sorted` is stable; insertion sort with a
total `≤` is the same stable sort), and key-sorts the fields.  The SHA-256
digest is then a fixed deterministic function of this structure (the compact
key-sorted JSON dump), so the structure itself is the fingerprint modelled
here. -/

/-- One entry of the forensic data structure: the ten forensic fields of a
record, each already canonicalized to a string. -/
structure ForensicFile where
  id : String
  name : String
  mime_type : String
  file_type : String
  creation_date_raw : String
  modification_date_raw : String
  size_bytes : String
  md5_checksum : String
  description : String
  trashed : String
deriving DecidableEq

/-- Canonicalization of one string value (`value.strip()`). -/
def canonStr (s : String) : String := pyStrip s

/-- Canonicalization of one boolean value. -/
def canonBool (b : Bool) : String := if b then ("true") else ("false")

/-- The forensic projection of one `FileRecord`. -/
def mkForensicFile (r : FileRecord) : ForensicFile :=
  { id := canonStr r.id,
    name := canonStr r.name,
    mime_type := canonStr r.mime_type,
    file_type := canonStr r.file_type,
    creation_date_raw := canonStr r.creation_date_raw,
    modification_date_raw := canonStr r.modification_date_raw,
    size_bytes := canonStr r.size_bytes,
    md5_checksum := canonStr r.md5_checksum,
    description := canonStr r.description,
    trashed := canonBool r.trashed }

/-- The sort relation of `sorted(metadata, key=lambda x: x.get('id', ''))`. -/
def recIdLe (a b : FileRecord) : Prop := pyStrLe a.id b.id = true

instance : DecidableRel recIdLe := fun a b => inferInstanceAs (Decidable (_ = true))

instance : IsTotal FileRecord recIdLe := ⟨fun a b => pyStrLe_total a.id b.id⟩

instance : IsTrans FileRecord recIdLe := ⟨fun _ _ _ => pyStrLe_trans⟩

/-- `create_forensic_hash_data`: sort the records by raw `id` and project each
onto its canonicalized forensic fields.  (The returned Python value is
`{'files': forensic_files}`; the list is the only content.) -/
def create_forensic_hash_data (metadata : List FileRecord) : List ForensicFile :=
  (List.insertionSort recIdLe metadata).map mkForensicFile

/-! Sorting factors through the `(raw id, forensic projection)` pairs: both the
sort key and the projection depend only on that pair. -/

/-- The pair carrying everything `create_forensic_hash_data` uses of a record. -/
def forensicKey (r : FileRecord) : String × ForensicFile := (r.id, mkForensicFile r)

/-- Sort relation on pairs, by first component. -/
def pairLe (p q : String × ForensicFile) : Prop := pyStrLe p.1 q.1 = true

instance : DecidableRel pairLe := fun a b => inferInstanceAs (Decidable (_ = true))

instance : IsTotal (String × ForensicFile) pairLe := ⟨fun a b => pyStrLe_total a.1 b.1⟩

instance : IsTrans (String × ForensicFile) pairLe := ⟨fun _ _ _ => pyStrLe_trans⟩

theorem map_orderedInsert_forensicKey (a : FileRecord) (l : List FileRecord) :
    (List.orderedInsert recIdLe a l).map forensicKey =
      List.orderedInsert pairLe (forensicKey a) (l.map forensicKey) := by
  induction l with
  | nil => rfl
  | cons b t ih =>
    simp only [List.orderedInsert, List.map_cons]
    by_cases h : recIdLe a b
    · rw [if_pos h, if_pos (show pairLe (forensicKey a) (forensicKey b) from h),
        List.map_cons, List.map_cons]
    · rw [if_neg h, if_neg (show ¬ pairLe (forensicKey a) (forensicKey b) from h),
        List.map_cons, ih]

theorem map_insertionSort_forensicKey (l : List FileRecord) :
    (List.insertionSort recIdLe l).map forensicKey =
      List.insertionSort pairLe (l.map forensicKey) := by
  induction l with
  | nil => rfl
  | cons a t ih =>
    simp only [List.map_cons, List.insertionSort, map_orderedInsert_forensicKey, ih]

/-- `create_forensic_hash_data` is a function of the list of forensic key
pairs alone. -/
theorem create_forensic_hash_data_eq_pairs (l : List FileRecord) :
    create_forensic_hash_data l =
      (List.insertionSort pairLe (l.map forensicKey)).map Prod.snd := by
  rw [create_forensic_hash_data, ← map_insertionSort_forensicKey, List.map_map]
  rfl

/-- The output is always a permutation of the pointwise forensic projections. -/
theorem create_forensic_hash_data_perm (l : List FileRecord) :
    (create_forensic_hash_data l).Perm (l.map mkForensicFile) := by
  rw [create_forensic_hash_data]
  exact (List.perm_insertionSort recIdLe l).map mkForensicFile

theorem length_create_forensic_hash_data (l : List FileRecord) :
    (create_forensic_hash_data l).length = l.length := by
  simpa using (create_forensic_hash_data_perm l).length_eq

/-! ### Extraction Scheduler (`src/extractor.py:310-462`)

The per-item processor is passed as a parameter `proc`: in the source it is
`_process_file`, which can only return `None` when the dynamic dictionary is
malformed; keeping it abstract lets the loop be verified for every behaviour
of the processor (fault injection included). -/

/-- `MetadataExtractor.__init__`: `max_workers` defaults to 1 and is clamped to
`[1, 4]` by `max(1, min(max_workers, 4))`. -/
def effectiveMaxWorkers (max_workers : Option Int) : Int :=
  max 1 (min (max_workers.getD 1) 4)

/-- The failure key recorded for an item: `file.get('id', 'unknown')`. -/
def failureId (f : RawItem) : String := f.id.getD ("unknown")

/-- The sequential processing loop (`max_workers == 1` branch): successes are
accumulated in order, a `None` result is recorded under the item's id and the
loop continues with the remaining items. -/
def processSequential (proc : RawItem → Option FileRecord) :
    List RawItem → List FileRecord × List String
  | [] => ([], [])
  | f :: rest =>
    let r := processSequential proc rest
    match proc f with
    | some m => (m :: r.1, r.2)
    | none => (r.1, failureId f :: r.2)

/-- Fixed-size chunking of the work list (`range(0, len, batch_size)` with
slices).  Call sites always pass a positive size; `max 1` keeps the
definition total. -/
def chunkList (n : Nat) : List α → List (List α)
  | [] => []
  | a :: t => (a :: t).take (max 1 n) :: chunkList n ((a :: t).drop (max 1 n))
termination_by l => l.length
decreasing_by
  have h1 : 1 ≤ max 1 n := Nat.le_max_left 1 n
  simp only [List.length_drop, List.length_cons]
  omega

/-- The batched thread-pool path (`else` branch): work is cut into batches of
`min(10, len(items))`; within a batch results are applied in `as_completed`
order, modelled by the `schedule` permutation applied to the batch (indexed by
batch number); per-item handling is identical to the sequential loop. -/
def processParallel (proc : RawItem → Option FileRecord)
    (schedule : Nat → List RawItem → List RawItem)
    (files : List RawItem) : List FileRecord × List String :=
  let bs := min 10 files.length
  ((chunkList bs files).enum.foldl
    (fun acc bi =>
      let r := processSequential proc (schedule bi.1 bi.2)
      (acc.1 ++ r.1, acc.2 ++ r.2))
    ([], []))

/-- The processing stage of `extract_folder`: sequential when the clamped
worker count is 1, batched otherwise. -/
def extractProcess (workers : Int) (schedule : Nat → List RawItem → List RawItem)
    (proc : RawItem → Option FileRecord) (files : List RawItem) :
    List FileRecord × List String :=
  if workers = 1 then processSequential proc files
  else processParallel proc schedule files

/-- What `extract_folder` returns once the file list is collected: the empty
list when traversal found nothing (`if not all_files: return []`), otherwise
only the success list `all_metadata` — the `errors` accumulator is dropped. -/
def extract_folder_process (workers : Int) (schedule : Nat → List RawItem → List RawItem)
    (proc : RawItem → Option FileRecord) (files : List RawItem) : List FileRecord :=
  if files = [] then []
  else (extractProcess workers schedule proc files).1

theorem processSequential_eq (proc : RawItem → Option FileRecord) (files : List RawItem) :
    processSequential proc files =
      (files.filterMap proc,
       (files.filter (fun f => (proc f).isNone)).map failureId) := by
  induction files with
  | nil => rfl
  | cons f rest ih =>
    simp only [processSequential, ih]
    cases h : proc f with
    | none => simp [List.filterMap_cons, List.filter_cons, h]
    | some m => simp [List.filterMap_cons, List.filter_cons, h]

theorem processSequential_perm (proc : RawItem → Option FileRecord)
    {l₁ l₂ : List RawItem} (h : l₁.Perm l₂) :
    (processSequential proc l₁).1.Perm (processSequential proc l₂).1 ∧
      (processSequential proc l₁).2.Perm (processSequential proc l₂).2 := by
  rw [processSequential_eq, processSequential_eq]
  exact ⟨h.filterMap proc, (h.filter _).map failureId⟩

theorem chunkList_flatten (n : Nat) (l : List α) : (chunkList n l).flatten = l := by
  generalize hk : l.length = k
  induction k using Nat.strong_induction_on generalizing l with
  | _ k ih =>
    cases l with
    | nil => rw [chunkList.eq_1]; rfl
    | cons a t =>
      have h1 : 1 ≤ max 1 n := Nat.le_max_left 1 n
      have hlt : ((a :: t).drop (max 1 n)).length < k := by
        subst hk
        simp only [List.length_drop, List.length_cons]
        omega
      rw [chunkList.eq_2, List.flatten_cons, ih _ hlt _ rfl, List.take_append_drop]

theorem foldl_pair_append (g : β → List γ) (h : β → List δ) (l : List β)
    (a : List γ) (b : List δ) :
    l.foldl (fun acc x => (acc.1 ++ g x, acc.2 ++ h x)) (a, b) =
      (a ++ (l.map g).flatten, b ++ (l.map h).flatten) := by
  induction l generalizing a b with
  | nil => simp
  | cons x t ih => simp [ih, List.append_assoc]

set_option maxRecDepth 4000 in
theorem processParallel_eq (proc : RawItem → Option FileRecord)
    (schedule : Nat → List RawItem → List RawItem) (files : List RawItem) :
    processParallel proc schedule files =
      (((chunkList (min 10 files.length) files).enum.map
          (fun bi => (schedule bi.1 bi.2).filterMap proc)).flatten,
       ((chunkList (min 10 files.length) files).enum.map
          (fun bi => ((schedule bi.1 bi.2).filter
            (fun f => (proc f).isNone)).map failureId)).flatten) := by
  rw [processParallel]
  have hfun : (fun (acc : List FileRecord × List String) (bi : Nat × List RawItem) =>
      let r := processSequential proc (schedule bi.1 bi.2)
      (acc.1 ++ r.1, acc.2 ++ r.2)) =
      (fun acc bi =>
        (acc.1 ++ (schedule bi.1 bi.2).filterMap proc,
         acc.2 ++ ((schedule bi.1 bi.2).filter
           (fun f => (proc f).isNone)).map failureId)) := by
    funext acc bi
    rw [processSequential_eq]
  rw [hfun]
  exact foldl_pair_append _ _ _ [] []

theorem filterMap_flatten_eq (f : α → Option β) (L : List (List α)) :
    (L.map (List.filterMap f)).flatten = L.flatten.filterMap f := by
  induction L with
  | nil => rfl
  | cons l t ih =>
    rw [List.map_cons, List.flatten_cons, List.flatten_cons,
      List.filterMap_append, ih]

theorem filterMap_map_flatten_eq (p : α → Bool) (g : α → β) (L : List (List α)) :
    (L.map (fun l => (l.filter p).map g)).flatten =
      (L.flatten.filter p).map g := by
  induction L with
  | nil => rfl
  | cons l t ih =>
    rw [List.map_cons, List.flatten_cons, List.flatten_cons,
      List.filter_append, List.map_append, ih]

theorem flatten_scheduled_perm (schedule : Nat → List RawItem → List RawItem)
    (hs : ∀ i b, (schedule i b).Perm b) (batches : List (Nat × List RawItem)) :
    ((batches.map (fun bi => schedule bi.1 bi.2)).flatten).Perm
      ((batches.map Prod.snd).flatten) := by
  induction batches with
  | nil => simp
  | cons b t ih => simpa using (hs b.1 b.2).append ih

/-! ### Traverser (`MetadataExtractor._collect_files_recursively`,
`src/extractor.py:236-308`)

The remote store is abstracted as a finite map from container id to the full
(already trash-filtered, pagination flattened) child listing; `univ` is the
finite list of container ids the store knows, listing anything else yields no
children.  The visited set is threaded explicitly (the Python set is mutated
in place and shared across the recursion).  Recursion is written with explicit
fuel; termination of the source algorithm is the theorem that enough fuel
(one unit per distinct container plus one) always yields `some`. -/

structure Store where
  univ : List String
  children : String → List RawItem

/-- Listing the children of a container (empty outside the store). -/
def Store.childrenOf (s : Store) (fid : String) : List RawItem :=
  if fid ∈ s.univ then s.children fid else []

/-- The folder test of the source: `file.get('mimeType') == 'application/vnd.google-apps.folder'`. -/
def isFolderItem (f : RawItem) : Bool :=
  f.mimeType = some ("application/vnd.google-apps.folder")

/-- The leaf entries of one container's listing (the items appended to
`all_files` when that container is scanned). -/
def leavesOf (s : Store) (fid : String) : List RawItem :=
  (s.childrenOf fid).filter (fun k => !(isFolderItem k))

/-- The folder entries of one container's listing. -/
def foldersOf (s : Store) (fid : String) : List RawItem :=
  (s.childrenOf fid).filter (fun k => isFolderItem k)

/-- The `for folder in folders_to_scan` loop: recurse (`step`, the recursive
collection at the remaining fuel) into each subfolder whose id is truthy
(`if subfolder_id`, so present and non-empty) and not yet visited. -/
def goFolders (step : String → List String → Option (List RawItem × List String)) :
    List RawItem → List RawItem → List String → Option (List RawItem × List String)
  | [], out, v => some (out, v)
  | f :: rest, out, v =>
    match f.id with
    | none => goFolders step rest out v
    | some c =>
      if c = ("") ∨ c ∈ v then goFolders step rest out v
      else
        match step c v with
        | none => none
        | some (o2, v2) => goFolders step rest (out ++ o2) v2

/-- `_collect_files_recursively`: a container already in the visited set is
skipped (returns no files); otherwise it is marked visited, its leaf children
are emitted, and its folder children are scanned in order, threading the
visited set. -/
def collectFuel (s : Store) : Nat → String → List String →
    Option (List RawItem × List String)
  | 0, _, _ => none
  | fuel + 1, folder_id, visited =>
    if folder_id ∈ visited then some ([], visited)
    else
      match goFolders (collectFuel s fuel) (foldersOf s folder_id) []
          (folder_id :: visited) with
      | none => none
      | some (out, v) => some (leavesOf s folder_id ++ out, v)

/-- Reachability in the containment graph: the containers visited by starting
at `root` and repeatedly following folder children carrying a truthy id (the
source skips a falsy `subfolder_id`). -/
inductive Reaches (s : Store) (root : String) : String → Prop
  | refl : Reaches s root root
  | step {c : String} {f : RawItem} {cid : String} :
      Reaches s root c → f ∈ s.childrenOf c → isFolderItem f = true →
      f.id = some cid → cid ≠ ("") → Reaches s root cid

/-- Every folder child of `c` with a truthy id is in `v`. -/
def folderChildrenIn (s : Store) (c : String) (v : List String) : Prop :=
  ∀ f ∈ s.childrenOf c, isFolderItem f = true →
    ∀ cid, f.id = some cid → cid ≠ ("") → cid ∈ v

theorem folderChildrenIn_mono {s : Store} {c : String} {v w : List String}
    (hvw : ∀ x ∈ v, x ∈ w) (h : folderChildrenIn s c v) : folderChildrenIn s c w :=
  fun f hf hfold cid hid hne => hvw _ (h f hf hfold cid hid hne)

/-- Postcondition of one `_collect_files_recursively` call. -/
def CollectPost (s : Store) (fid : String) (visited : List String)
    (out : List RawItem) (v' : List String) : Prop :=
  (fid ∈ visited ∧ out = [] ∧ v' = visited) ∨
  (fid ∉ visited ∧ ∃ p : List String,
    v' = p ++ visited ∧ fid ∈ p ∧ p.Nodup ∧ (∀ c ∈ p, c ∉ visited) ∧
    out.Perm (p.flatMap (leavesOf s)) ∧
    (∀ c ∈ p, folderChildrenIn s c v'))

/-- Postcondition of the subfolder loop. -/
def GoPost (s : Store) (l : List RawItem) (out₀ : List RawItem) (v₀ : List String)
    (out : List RawItem) (v' : List String) : Prop :=
  ∃ p : List String,
    v' = p ++ v₀ ∧ p.Nodup ∧ (∀ c ∈ p, c ∉ v₀) ∧
    out.Perm (out₀ ++ p.flatMap (leavesOf s)) ∧
    (∀ c ∈ p, folderChildrenIn s c v') ∧
    (∀ f ∈ l, ∀ cid, f.id = some cid → cid ≠ ("") → cid ∈ v')

theorem goFolders_spec (s : Store) (fuel : Nat)
    (IH : ∀ fid visited out v', collectFuel s fuel fid visited = some (out, v') →
      CollectPost s fid visited out v') :
    ∀ l out₀ v₀ out v', goFolders (collectFuel s fuel) l out₀ v₀ = some (out, v') →
      GoPost s l out₀ v₀ out v' := by
  intro l
  induction l with
  | nil =>
    intro out₀ v₀ out v' h
    rw [goFolders] at h
    cases h
    refine ⟨[], rfl, List.nodup_nil, by simp, by simp, by simp, by simp⟩
  | cons f rest ih =>
    intro out₀ v₀ out v' h
    rw [goFolders] at h
    cases hid : f.id with
    | none =>
      rw [hid] at h
      obtain ⟨p, h1, h2, h3, h4, h5, h6⟩ := ih out₀ v₀ out v' h
      refine ⟨p, h1, h2, h3, h4, h5, ?_⟩
      intro g hg cid hcid hne
      cases hg with
      | head => rw [hid] at hcid; cases hcid
      | tail _ hg => exact h6 g hg cid hcid hne
    | some c =>
      rw [hid] at h
      have h2 : (if c = ("") ∨ c ∈ v₀ then goFolders (collectFuel s fuel) rest out₀ v₀
          else match collectFuel s fuel c v₀ with
            | none => none
            | some (o2, v2) => goFolders (collectFuel s fuel) rest (out₀ ++ o2) v2) =
          some (out, v') := h
      by_cases hskip : c = ("") ∨ c ∈ v₀
      · rw [if_pos hskip] at h2
        obtain ⟨p, h1, h2, h3, h4, h5, h6⟩ := ih out₀ v₀ out v' h2
        refine ⟨p, h1, h2, h3, h4, h5, ?_⟩
        intro g hg cid hcid hne
        cases hg with
        | head =>
          rw [hid] at hcid
          injection hcid with hcc
          rw [← hcc]
          rw [← hcc] at hne
          rcases hskip with hskip | hskip
          · exact absurd hskip hne
          · rw [h1]
            exact List.mem_append_right p hskip
        | tail _ hg => exact h6 g hg cid hcid hne
      · rw [if_neg hskip] at h2
        push_neg at hskip
        obtain ⟨hcne, hcv⟩ := hskip
        cases hcol : collectFuel s fuel c v₀ with
        | none =>
          rw [hcol] at h2
          exact Option.noConfusion h2
        | some r =>
          obtain ⟨o2, v2⟩ := r
          rw [hcol] at h2
          rcases IH c v₀ o2 v2 hcol with ⟨hcv', -, -⟩ | ⟨-, p1, hp1, hcp1, hnd1, hdis1, hperm1, hcov1⟩
          · exact absurd hcv' hcv
          · obtain ⟨p2, hp2, hnd2, hdis2, hperm2, hcov2, hrest⟩ := ih _ _ out v' h2
            have hsub12 : ∀ x ∈ v2, x ∈ v' := by
              intro x hx
              rw [hp2]
              exact List.mem_append_right p2 hx
            refine ⟨p2 ++ p1, ?_, ?_, ?_, ?_, ?_, ?_⟩
            · rw [hp2, hp1, List.append_assoc]
            · rw [List.nodup_append]
              refine ⟨hnd2, hnd1, ?_⟩
              intro x hx2 hx1
              exact hdis2 x hx2 (by rw [hp1]; exact List.mem_append_left v₀ hx1)
            · intro x hx
              rcases List.mem_append.mp hx with hx | hx
              · intro hxv
                exact hdis2 x hx (by rw [hp1]; exact List.mem_append_right p1 hxv)
              · exact hdis1 x hx
            · refine hperm2.trans ?_
              rw [List.flatMap_append]
              have e1 : ((out₀ ++ o2) ++ p2.flatMap (leavesOf s)).Perm
                  ((out₀ ++ p1.flatMap (leavesOf s)) ++ p2.flatMap (leavesOf s)) :=
                (hperm1.append_left out₀).append_right _
              refine e1.trans ?_
              rw [List.append_assoc]
              exact List.perm_append_comm.append_left out₀
            · intro x hx
              rcases List.mem_append.mp hx with hx | hx
              · exact hcov2 x hx
              · exact folderChildrenIn_mono hsub12 (hcov1 x hx)
            · intro g hg cid hcid hne
              cases hg with
              | head =>
                rw [hid] at hcid
                injection hcid with hcc
                rw [← hcc]
                refine hsub12 c ?_
                rw [hp1]
                exact List.mem_append_left v₀ hcp1
              | tail _ hg => exact hrest g hg cid hcid hne

theorem collectFuel_spec (s : Store) :
    ∀ fuel fid visited out v', collectFuel s fuel fid visited = some (out, v') →
      CollectPost s fid visited out v' := by
  intro fuel
  induction fuel with
  | zero =>
    intro fid visited out v' h
    rw [collectFuel] at h
    exact Option.noConfusion h
  | succ fuel ih =>
    intro fid visited out v' h
    rw [collectFuel] at h
    by_cases hvis : fid ∈ visited
    · rw [if_pos hvis] at h
      injection h with h
      injection h with h1 h2
      exact Or.inl ⟨hvis, h1.symm, h2.symm⟩
    · rw [if_neg hvis] at h
      cases hgo : goFolders (collectFuel s fuel) (foldersOf s fid) [] (fid :: visited) with
      | none =>
        rw [hgo] at h
        exact Option.noConfusion h
      | some r =>
        obtain ⟨out_go, vg⟩ := r
        rw [hgo] at h
        injection h with h
        injection h with h1 h2
        obtain ⟨p, hp, hnd, hdis, hperm, hcov, hkids⟩ :=
          goFolders_spec s fuel ih _ _ _ _ _ hgo
        subst h2
        refine Or.inr ⟨hvis, p ++ [fid], ?_, ?_, ?_, ?_, ?_, ?_⟩
        · rw [hp, List.append_assoc, List.singleton_append]
        · exact List.mem_append_right p (List.mem_singleton_self fid)
        · rw [List.nodup_append]
          refine ⟨hnd, List.nodup_singleton fid, ?_⟩
          intro x hx hx1
          rw [List.mem_singleton] at hx1
          refine hdis x hx ?_
          rw [hx1]
          exact List.mem_cons_self fid visited
        · intro x hx
          rcases List.mem_append.mp hx with hx | hx
          · intro hxv
            exact hdis x hx (List.mem_cons_of_mem fid hxv)
          · rw [List.mem_singleton] at hx
            rw [hx]
            exact hvis
        · rw [← h1, List.flatMap_append]
          simp only [List.flatMap_cons, List.flatMap_nil, List.append_nil]
          have hperm' : out_go.Perm (p.flatMap (leavesOf s)) := by simpa using hperm
          exact (hperm'.append_left (leavesOf s fid)).trans List.perm_append_comm
        · intro x hx
          rcases List.mem_append.mp hx with hx | hx
          · exact hcov x hx
          · rw [List.mem_singleton] at hx
            subst hx
            intro g hg hgf cid hcid hcne
            refine hkids g ?_ cid hcid hcne
            rw [foldersOf, List.mem_filter]
            exact ⟨hg, hgf⟩

/-- Count of known containers not yet visited: the termination measure of the
source algorithm (the visited set bounds total work by the number of distinct
containers). -/
def visMeasure (s : Store) (v : List String) : Nat :=
  (s.univ.filter (fun c => decide (c ∉ v))).length

theorem visMeasure_mono {s : Store} {v w : List String} (h : ∀ x ∈ v, x ∈ w) :
    visMeasure s w ≤ visMeasure s v := by
  refine List.Sublist.length_le ?_
  refine List.monotone_filter_right s.univ ?_
  intro a ha
  simp only [decide_eq_true_eq] at ha ⊢
  intro hav
  exact ha (h a hav)

theorem visMeasure_insert_lt {s : Store} {v : List String} {fid : String}
    (hu : fid ∈ s.univ) (hv : fid ∉ v) :
    visMeasure s (fid :: v) < visMeasure s v := by
  have hsub : (s.univ.filter (fun c => decide (c ∉ fid :: v))).Sublist
      (s.univ.filter (fun c => decide (c ∉ v))) := by
    refine List.monotone_filter_right s.univ ?_
    intro a ha
    simp only [decide_eq_true_eq, List.mem_cons] at ha ⊢
    intro hav
    exact ha (Or.inr hav)
  refine Nat.lt_of_le_of_ne (hsub.length_le) ?_
  intro heq
  have heq2 := hsub.eq_of_length heq
  have h1 : fid ∈ s.univ.filter (fun c => decide (c ∉ v)) := by
    rw [List.mem_filter]
    exact ⟨hu, by simpa using hv⟩
  rw [← heq2, List.mem_filter] at h1
  simp at h1

theorem collectFuel_mono_visited {s : Store} {fuel : Nat} {fid : String}
    {visited : List String} {out : List RawItem} {v' : List String} :
    ∀ (_ : collectFuel s fuel fid visited = some (out, v')) (x : String),
      x ∈ visited → x ∈ v' := by
  intro h x hx
  rcases collectFuel_spec s fuel fid visited out v' h with ⟨-, -, h2⟩ | ⟨-, p, hp, -⟩
  · rw [h2]; exact hx
  · rw [hp]; exact List.mem_append_right p hx

theorem goFolders_enough (s : Store) (fuel : Nat)
    (IH : ∀ fid visited, visMeasure s visited < fuel →
      (collectFuel s fuel fid visited).isSome) :
    ∀ l out₀ v₀, visMeasure s v₀ < fuel → (goFolders (collectFuel s fuel) l out₀ v₀).isSome := by
  intro l
  induction l with
  | nil => intro out₀ v₀ _; rw [goFolders]; rfl
  | cons f rest ih =>
    intro out₀ v₀ hm
    rw [goFolders]
    cases hid : f.id with
    | none => exact ih out₀ v₀ hm
    | some c =>
      show (if c = ("") ∨ c ∈ v₀ then goFolders (collectFuel s fuel) rest out₀ v₀
          else match collectFuel s fuel c v₀ with
            | none => none
            | some (o2, v2) => goFolders (collectFuel s fuel) rest (out₀ ++ o2) v2).isSome = true
      by_cases hskip : c = ("") ∨ c ∈ v₀
      · rw [if_pos hskip]
        exact ih out₀ v₀ hm
      · rw [if_neg hskip]
        have hsome := IH c v₀ hm
        cases hcol : collectFuel s fuel c v₀ with
        | none => rw [hcol] at hsome; cases hsome
        | some r =>
          obtain ⟨o2, v2⟩ := r
          have hv2 : visMeasure s v2 ≤ visMeasure s v₀ :=
            visMeasure_mono (fun x hx => collectFuel_mono_visited hcol x hx)
          exact ih (out₀ ++ o2) v2 (Nat.lt_of_le_of_lt hv2 hm)

theorem collectFuel_enough (s : Store) :
    ∀ fuel fid visited, visMeasure s visited < fuel →
      (collectFuel s fuel fid visited).isSome := by
  intro fuel
  induction fuel with
  | zero => intro fid visited hm; cases hm
  | succ fuel ih =>
    intro fid visited hm
    rw [collectFuel]
    by_cases hvis : fid ∈ visited
    · rw [if_pos hvis]; rfl
    · rw [if_neg hvis]
      by_cases hu : fid ∈ s.univ
      · have hm1 : visMeasure s (fid :: visited) < fuel := by
          have := visMeasure_insert_lt hu hvis
          omega
        have hgo := goFolders_enough s fuel ih (foldersOf s fid) [] (fid :: visited) hm1
        cases hgo2 : goFolders (collectFuel s fuel) (foldersOf s fid) [] (fid :: visited) with
        | none => rw [hgo2] at hgo; cases hgo
        | some r =>
          obtain ⟨o, v⟩ := r
          rfl
      · have hempty : foldersOf s fid = [] := by
          rw [foldersOf, Store.childrenOf, if_neg hu, List.filter_nil]
        rw [hempty, goFolders]
        rfl

/-- Counting a record across a flat-mapped leaf listing. -/
theorem count_flatMap_leaves (s : Store) (r : RawItem) (p : List String) :
    ((p.flatMap (leavesOf s)).count r) =
      ((p.map (fun c => (leavesOf s c).count r)).sum) := by
  induction p with
  | nil => rfl
  | cons c t ih =>
    rw [List.flatMap_cons, List.count_append, ih, List.map_cons, List.sum_cons]

theorem sum_single_one {g : String → Nat} {p : List String} {c0 : String}
    (hnd : p.Nodup) (hc0 : c0 ∈ p) (hone : g c0 = 1)
    (hzero : ∀ c, c ≠ c0 → g c = 0) : (p.map g).sum = 1 := by
  induction p with
  | nil => cases hc0
  | cons c t ih =>
    rw [List.map_cons, List.sum_cons]
    rcases List.mem_cons.mp hc0 with hc | hc
    · have hz : ∀ x ∈ t, g x = 0 := by
        intro x hx
        refine hzero x ?_
        intro hxc
        rw [List.nodup_cons] at hnd
        rw [hxc, hc] at hx
        exact hnd.1 hx
      have : (t.map g).sum = 0 := by
        rw [List.sum_eq_zero]
        intro x hx
        rw [List.mem_map] at hx
        obtain ⟨a, ha, hax⟩ := hx
        rw [← hax]
        exact hz a ha
      rw [this, ← hc, hone]
    · rw [List.nodup_cons] at hnd
      have hcne : c ≠ c0 := by
        intro hcc
        rw [hcc] at hnd
        exact hnd.1 hc
      rw [hzero c hcne, ih hnd.2 hc]

/-- Completeness: every container reachable from the root of a top-level
collection ends up in the visited set. -/
theorem reachable_visited {s : Store} {fuel : Nat} {root : String}
    {out : List RawItem} {v' : List String}
    (h : collectFuel s fuel root [] = some (out, v')) :
    ∀ c, Reaches s root c → c ∈ v' := by
  rcases collectFuel_spec s fuel root [] out v' h with ⟨hr, -, -⟩ | ⟨-, p, hp, hrp, -, -, -, hcov⟩
  · cases hr
  · have hpv : ∀ x ∈ p, x ∈ v' := by
      intro x hx
      rw [hp]
      exact List.mem_append_left [] hx
    intro c hc
    induction hc with
    | refl => exact hpv root hrp
    | step hreach hchild hfold hcid hcne ihc =>
      rename_i c1 f cid
      have hc1p : c1 ∈ p := by
        have := ihc
        rw [hp] at this
        simpa using this
      exact hcov c1 hc1p f hchild hfold cid hcid hcne

/-! ### Job Controller (`web_app.py`)

The shared `extraction_state` dictionary is embedded as `JobState`; the four
HTTP control endpoints are pure functions `JobState → Except String JobState`
(an `Except.error` is the 400 response, leaving the state unchanged).

`run_extraction` is the background thread.  It reads `stop_event` at a fixed
sequence of checkpoints; reads are numbered in execution order and the stop
request is modelled by `stopFrom = some k`: the request was issued (and the
`stop` endpoint's state reset performed) between state read `k-1` and state
read `k`, so every read with index `≥ k` observes it.  Reads inside the
progress callback only return early and are state-neutral, so they are not
numbered.  Authentication, traversal and the exporters are abstracted by
`authOk`, the `collected` listing result (`Except.error` is a raised
`HttpError`) and the always-succeeding export writes recorded in `written`. -/

inductive Status
  | idle
  | running
  | paused
  | stopped
  | completed
  | error
deriving DecidableEq

inductive ExportFormat
  | csv
  | json
  | pdf
deriving DecidableEq

/-- Which export formats were requested (`export_formats`). -/
structure FormatSel where
  csv : Bool
  json : Bool
  pdf : Bool
deriving DecidableEq

/-- The list of export files a fully successful job writes, in write order. -/
def selList (fmts : FormatSel) : List ExportFormat :=
  (if fmts.csv then [ExportFormat.csv] else []) ++
    (if fmts.json then [ExportFormat.json] else []) ++
    (if fmts.pdf then [ExportFormat.pdf] else [])

/-- The `extraction_state` dictionary (fields relevant to control flow). -/
structure JobState where
  status : Status
  progress : Nat
  total : Nat
  message : String
  metadata : Option (List FileRecord)
  output_path : Option String
  error : Option String
deriving DecidableEq

/-- The module-level initial state (and the reset dictionary used by
`start_extraction` and `stop_extraction`, up to the message text). -/
def resetState (msg : String) : JobState :=
  { status := Status.idle, progress := 0, total := 0, message := msg,
    metadata := none, output_path := none, error := none }

/-- The state after the thread observes a stop at a checkpoint: the `stop`
endpoint has already reset the dictionary; the thread then writes `status`
and `message`. -/
def stoppedState : JobState :=
  { status := Status.stopped, progress := 0, total := 0,
    message := "Extraction stopped by user",
    metadata := none, output_path := none, error := none }

/-- `start_extraction` endpoint: rejected while running, otherwise resets the
state (the spawned thread is modelled by `runExtraction`). -/
def start_extraction (st : JobState) : Except String JobState :=
  if st.status = Status.running then Except.error ("Extraction already running")
  else Except.ok (resetState (""))

/-- `pause_extraction` endpoint. -/
def pause_extraction (st : JobState) : Except String JobState :=
  if st.status = Status.running then
    Except.ok { st with
      status := Status.paused
      message := "Extraction paused. Click Resume to continue." }
  else Except.error ("Extraction is not running")

/-- `resume_extraction` endpoint. -/
def resume_extraction (st : JobState) : Except String JobState :=
  if st.status = Status.paused then
    Except.ok { st with
      status := Status.running
      message := "Resuming extraction..." }
  else Except.error ("Extraction is not paused")

/-- `stop_extraction` endpoint: only legal while running or paused; sets
`stop_event` and resets the whole dictionary (status `idle`). -/
def stop_extraction (st : JobState) : Except String JobState :=
  if st.status = Status.running ∨ st.status = Status.paused then
    Except.ok (resetState ("Extraction stopped by user"))
  else Except.error ("No extraction to stop")

/-- `update_progress`: writes phase/progress/total/message only. -/
def update_progress (st : JobState) (progress total : Nat) (message : String) :
    JobState :=
  { st with
    progress := progress
    total := total
    message := message }

/-- Result of one background-thread run: the final state and the export files
written along the way. -/
structure RunResult where
  final : JobState
  written : List ExportFormat
deriving DecidableEq

/-- One read of `stop_event.is_set()`: reads are numbered in execution order;
`stopFrom = some k` means the request arrived before read `k`. -/
def isStopAt (stopFrom : Option Nat) (n : Nat) : Bool :=
  match stopFrom with
  | none => false
  | some k => decide (k ≤ n)

/-- The `except Exception` handler of `run_extraction`, entered after `n`
stop-event reads: when stop is set the thread writes nothing and the `stop`
endpoint's reset dictionary stands; otherwise status `error` with the failure
detail retained. -/
def failWith (stopFrom : Option Nat) (n : Nat) (e : String) (tot : Nat)
    (w : List ExportFormat) : RunResult :=
  if isStopAt stopFrom n then
    { final := resetState ("Extraction stopped by user"), written := w }
  else
    { final := { status := Status.error
                 progress := 0
                 total := tot
                 message := ("Error: ") ++ e
                 metadata := none
                 output_path := none
                 error := some e }
      written := w }

/-- The `completed` state written at the very end of `run_extraction`. -/
def completedResult (metadata : List FileRecord) (output_name : String)
    (w : List ExportFormat) : RunResult :=
  { final := { status := Status.completed
               progress := metadata.length
               total := metadata.length
               message := ("Successfully extracted ") ++ toString metadata.length ++ (" files!")
               metadata := some metadata
               output_path := some (("output/") ++ output_name)
               error := none }
    written := w }

/-- A stop observed at a checkpoint: endpoint reset plus the thread's
`stopped` status/message write; `w` is what was exported before the stop. -/
def stoppedRes (w : List ExportFormat) : RunResult :=
  { final := stoppedState, written := w }

/-- The export phase of `run_extraction` (reads 4-8, the three exporter calls,
and the final `completed` write). -/
def runExports (stopFrom : Option Nat) (fmts : FormatSel) (output_name : String)
    (metadata : List FileRecord) : RunResult :=
  if isStopAt stopFrom 4 then stoppedRes [] else
  if isStopAt stopFrom 5 then stoppedRes [] else
  if isStopAt stopFrom 6 then
    stoppedRes (if fmts.csv then [ExportFormat.csv] else []) else
  if isStopAt stopFrom 7 then
    stoppedRes ((if fmts.csv then [ExportFormat.csv] else []) ++
      (if fmts.json then [ExportFormat.json] else [])) else
  if isStopAt stopFrom 8 then stoppedRes (selList fmts) else
  completedResult metadata output_name (selList fmts)

/-- The post-traversal tail of `run_extraction`: read 3, the
`if not metadata: raise` empty check, then the export phase. -/
def runFiles (workers : Option Int) (schedule : Nat → List RawItem → List RawItem)
    (proc : RawItem → Option FileRecord) (stopFrom : Option Nat)
    (fmts : FormatSel) (output_name : String) (files : List RawItem) : RunResult :=
  if isStopAt stopFrom 3 then stoppedRes [] else
  if extract_folder_process (effectiveMaxWorkers workers) schedule proc files = [] then
    failWith stopFrom 4 ("No files found to extract") files.length [] else
  runExports stopFrom fmts output_name
    (extract_folder_process (effectiveMaxWorkers workers) schedule proc files)

/-- `run_extraction` (`web_app.py:719-860`). -/
def runExtraction (workers : Option Int) (schedule : Nat → List RawItem → List RawItem)
    (proc : RawItem → Option FileRecord) (authOk : Bool)
    (collected : Except String (List RawItem)) (stopFrom : Option Nat)
    (fmts : FormatSel) (output_name : String) : RunResult :=
  if isStopAt stopFrom 0 then stoppedRes [] else
  if isStopAt stopFrom 1 then stoppedRes [] else
  if ¬ authOk then
    failWith stopFrom 2 ("Could not establish connection with Google Drive") 0 [] else
  if isStopAt stopFrom 2 then stoppedRes [] else
  match collected with
  | Except.error e => failWith stopFrom 3 e 0 []
  | Except.ok files => runFiles workers schedule proc stopFrom fmts output_name files

theorem failWith_written (sf : Option Nat) (n : Nat) (e : String) (tot : Nat)
    (w : List ExportFormat) : (failWith sf n e tot w).written = w := by
  rw [failWith]
  split <;> rfl

theorem failWith_metadata (sf : Option Nat) (n : Nat) (e : String) (tot : Nat)
    (w : List ExportFormat) : (failWith sf n e tot w).final.metadata = none := by
  rw [failWith]
  split <;> rfl

theorem failWith_status_ne (sf : Option Nat) (n : Nat) (e : String) (tot : Nat)
    (w : List ExportFormat) : (failWith sf n e tot w).final.status ≠ Status.completed := by
  rw [failWith]
  split
  · intro hcon
    exact Status.noConfusion hcon
  · intro hcon
    exact Status.noConfusion hcon

/-! ### Fingerprint lemmas (claim C1) -/

/-- Equality of the ten raw forensic fields (everything else — last-viewed
time, parents, share link, permissions, star, version, owner identities,
formatted values — may differ freely). -/
def forensicEqRaw (r r' : FileRecord) : Prop :=
  r.id = r'.id ∧ r.name = r'.name ∧ r.mime_type = r'.mime_type ∧
  r.file_type = r'.file_type ∧ r.creation_date_raw = r'.creation_date_raw ∧
  r.modification_date_raw = r'.modification_date_raw ∧
  r.size_bytes = r'.size_bytes ∧ r.md5_checksum = r'.md5_checksum ∧
  r.description = r'.description ∧ r.trashed = r'.trashed

theorem forensicKey_eq_of_raw {r r' : FileRecord} (h : forensicEqRaw r r') :
    forensicKey r = forensicKey r' := by
  obtain ⟨h1, h2, h3, h4, h5, h6, h7, h8, h9, h10⟩ := h
  rw [forensicKey, forensicKey, mkForensicFile, mkForensicFile,
    h1, h2, h3, h4, h5, h6, h7, h8, h9, h10]

/-- The strict pair relation used to pin down the sorted pair list. -/
def pairLtNe (p q : String × ForensicFile) : Prop := pairLe p q ∧ p.1 ≠ q.1

instance : IsAntisymm (String × ForensicFile) pairLtNe :=
  ⟨fun _ _ h1 h2 => absurd (pyStrLe_antisymm h1.1 h2.1) h1.2⟩

theorem sorted_pairLtNe {l : List (String × ForensicFile)}
    (hs : l.Sorted pairLe) (hn : (l.map Prod.fst).Nodup) : l.Sorted pairLtNe := by
  rw [List.Nodup, List.pairwise_map] at hn
  exact List.Pairwise.and hs hn

theorem cfhd_perm_nodup {l₁ l₂ : List FileRecord} (hperm : l₁.Perm l₂)
    (hnd : (l₁.map FileRecord.id).Nodup) :
    create_forensic_hash_data l₁ = create_forensic_hash_data l₂ := by
  rw [create_forensic_hash_data_eq_pairs, create_forensic_hash_data_eq_pairs]
  have hkey : ∀ l : List FileRecord, (l.map forensicKey).map Prod.fst =
      l.map FileRecord.id := by
    intro l
    rw [List.map_map]
    rfl
  have hp : (List.insertionSort pairLe (l₁.map forensicKey)).Perm
      (List.insertionSort pairLe (l₂.map forensicKey)) :=
    ((List.perm_insertionSort pairLe _).trans (hperm.map forensicKey)).trans
      (List.perm_insertionSort pairLe _).symm
  have hs₁ := List.sorted_insertionSort pairLe (l₁.map forensicKey)
  have hs₂ := List.sorted_insertionSort pairLe (l₂.map forensicKey)
  have hn₁ : ((List.insertionSort pairLe (l₁.map forensicKey)).map Prod.fst).Nodup := by
    refine ((List.perm_insertionSort pairLe (l₁.map forensicKey)).map Prod.fst).nodup_iff.mpr ?_
    rw [hkey]
    exact hnd
  have hn₂ : ((List.insertionSort pairLe (l₂.map forensicKey)).map Prod.fst).Nodup := by
    refine ((List.perm_insertionSort pairLe (l₂.map forensicKey)).map Prod.fst).nodup_iff.mpr ?_
    rw [hkey]
    exact ((hperm.map FileRecord.id).nodup_iff).mp hnd
  rw [List.eq_of_perm_of_sorted hp (sorted_pairLtNe hs₁ hn₁) (sorted_pairLtNe hs₂ hn₂)]

theorem cfhd_forall₂ {l₁ l₂ : List FileRecord}
    (h : List.Forall₂ forensicEqRaw l₁ l₂) :
    create_forensic_hash_data l₁ = create_forensic_hash_data l₂ := by
  rw [create_forensic_hash_data_eq_pairs, create_forensic_hash_data_eq_pairs]
  have : l₁.map forensicKey = l₂.map forensicKey := by
    induction h with
    | nil => rfl
    | cons hab _ ih => rw [List.map_cons, List.map_cons, forensicKey_eq_of_raw hab, ih]
  rw [this]

theorem cons_perm_head_eq {α : Type} [DecidableEq α] {a b : α} {u : List α}
    (h : (a :: u).Perm (b :: u)) : a = b := by
  by_contra hne
  have hc := h.count_eq a
  rw [List.count_cons_self, List.count_cons_of_ne hne] at hc
  omega

theorem set_perm_get {α : Type} [DecidableEq α] :
    ∀ (u : List α) (i : Nat) (b : α) (hi : i < u.length),
      (u.set i b).Perm u → b = u.get ⟨i, hi⟩ := by
  intro u
  induction u with
  | nil => intro i b hi; cases hi
  | cons a t ih =>
    intro i b hi hperm
    cases i with
    | zero => exact cons_perm_head_eq hperm
    | succ i =>
      rw [List.set_cons_succ] at hperm
      exact ih i b (Nat.lt_of_succ_lt_succ hi) hperm.cons_inv

theorem cfhd_sensitive {l : List FileRecord} {i : Nat} {r' : FileRecord}
    (hi : i < l.length) (hne : mkForensicFile r' ≠ mkForensicFile (l.get ⟨i, hi⟩)) :
    create_forensic_hash_data (l.set i r') ≠ create_forensic_hash_data l := by
  intro heq
  have hp : ((l.set i r').map mkForensicFile).Perm (l.map mkForensicFile) :=
    ((create_forensic_hash_data_perm (l.set i r')).symm.trans
      (heq ▸ create_forensic_hash_data_perm l) :)
  rw [List.map_set] at hp
  have hlen : i < (l.map mkForensicFile).length := by
    rw [List.length_map]; exact hi
  have := set_perm_get (l.map mkForensicFile) i (mkForensicFile r') hlen hp
  rw [List.get_map] at this
  exact hne this

theorem cfhd_membership (l : List FileRecord) (r : FileRecord) :
    create_forensic_hash_data (r :: l) ≠ create_forensic_hash_data l := by
  intro heq
  have h1 := length_create_forensic_hash_data (r :: l)
  have h2 := length_create_forensic_hash_data l
  rw [heq] at h1
  rw [h1, List.length_cons] at h2
  omega

/-! ### Concrete fixtures for witnesses and counterexamples -/

/-- A fully populated `FileRecord` as produced for an ordinary Drive file. -/
def baseRecord : FileRecord :=
  { id := "f1", name := "x", mime_type := "text/plain", file_type := "Text",
    creation_date := some ("2023-05-01 10:00:00 UTC"),
    modification_date := some ("2023-05-02 10:00:00 UTC"),
    last_viewed_date := none,
    creation_date_raw := "2023-05-01T10:00:00.000Z",
    modification_date_raw := "2023-05-02T10:00:00.000Z",
    size_bytes := "42", size_formatted := "42.00 B",
    owner_email := "a@b.c", owner_name := "A", last_modifier_email := "a@b.c",
    last_modifier_name := "A", sharing_user_email := "N/A", full_path := "x",
    share_link := "N/A", shared := false, trashed := false, starred := false,
    description := "", md5_checksum := "d41d8cd98f00b204e9800998ecf8427e",
    version := "3", permissions := "user:owner", permission_count := 1,
    parents := "root" }

/-- A second record with a distinct id. -/
def secondRecord : FileRecord :=
  { baseRecord with
    id := "f2"
    name := "y" }

/-- `baseRecord` with a whitespace-only rename. -/
def renamedRecord : FileRecord :=
  { baseRecord with
    name := "x " }

/-- A raw item the injected-fault processor fails on. -/
def badItem : RawItem :=
  { emptyRawItem with
    id := some ("bad") }

/-- Fault-injecting processor: fails exactly on `badItem`. -/
def procBad (f : RawItem) : Option FileRecord :=
  if f.id = some ("bad") then none else process_file f

/-- The leaf item of the multi-parent counterexample store. -/
def leafL : RawItem :=
  { emptyRawItem with
    id := some ("L")
    mimeType := some ("text/plain") }

/-- The subfolder entry of the counterexample store. -/
def folderB : RawItem :=
  { emptyRawItem with
    id := some ("B")
    mimeType := some ("application/vnd.google-apps.folder") }

/-- Containment graph where leaf `L` is listed by both container `A` and its
subfolder `B`. -/
def cexStore : Store :=
  { univ := [("A"), ("B")],
    children := fun fid =>
      if fid = ("A") then [folderB, leafL]
      else if fid = ("B") then [leafL]
      else [] }

/-- A running job state with no result metadata. -/
def runningState : JobState :=
  { status := Status.running, progress := 0, total := 0, message := "",
    metadata := none, output_path := none, error := none }

/-- The state `pause_extraction` produces from `runningState`. -/
def pausedWitnessState : JobState :=
  { status := Status.paused, progress := 0, total := 0,
    message := "Extraction paused. Click Resume to continue.",
    metadata := none, output_path := none, error := none }

theorem forall₂_ids_eq {l₁ l₂ : List FileRecord}
    (h : List.Forall₂ forensicEqRaw l₁ l₂) :
    l₁.map FileRecord.id = l₂.map FileRecord.id := by
  induction h with
  | nil => rfl
  | cons hab _ ih => rw [List.map_cons, List.map_cons, hab.1, ih]

theorem processSequential_length (proc : RawItem → Option FileRecord)
    (files : List RawItem) :
    (processSequential proc files).1.length + (processSequential proc files).2.length =
      files.length := by
  induction files with
  | nil => rfl
  | cons f rest ih =>
    simp only [processSequential]
    cases proc f with
    | none => simp only [List.length_cons]; omega
    | some m => simp only [List.length_cons]; omega

/-! ### Claims -/

/-- C1 (counterexample): the claim says the fingerprint changes whenever the
`name` of some record differs, but `create_forensic_hash_data` strips string
values, so renaming `"x"` to `"x "` leaves the forensic data (hence the
hash of its canonical serialization) unchanged while the names differ. -/
theorem c1_counterexample :
    create_forensic_hash_data [baseRecord] = create_forensic_hash_data [renamedRecord] ∧
      baseRecord.name ≠ renamedRecord.name := by
  constructor
  · decide
  · decide

/-- C1 (amended): the forensic data built by `create_forensic_hash_data` is
(1) invariant under permutation of the record list when raw ids are pairwise
distinct, (2) invariant under any change confined to non-forensic fields,
(3) changed whenever one record is replaced by one whose canonicalized
(stripped / bool-stringified) forensic subset differs, (4) changed by adding
(or, symmetrically, removing) a record, and (5) unchanged when records are
simultaneously permuted and edited only in non-forensic fields (the
contrapositive of the claim's only-if direction). -/
theorem c1_amended :
    (∀ l₁ l₂ : List FileRecord, l₁.Perm l₂ → (l₁.map FileRecord.id).Nodup →
      create_forensic_hash_data l₁ = create_forensic_hash_data l₂) ∧
    (∀ l₁ l₂ : List FileRecord, List.Forall₂ forensicEqRaw l₁ l₂ →
      create_forensic_hash_data l₁ = create_forensic_hash_data l₂) ∧
    (∀ (l : List FileRecord) (i : Nat) (r' : FileRecord) (hi : i < l.length),
      mkForensicFile r' ≠ mkForensicFile (l.get ⟨i, hi⟩) →
      create_forensic_hash_data (l.set i r') ≠ create_forensic_hash_data l) ∧
    (∀ (l : List FileRecord) (r : FileRecord),
      create_forensic_hash_data (r :: l) ≠ create_forensic_hash_data l) ∧
    (∀ l₁ l₂ l₃ : List FileRecord, (l₁.map FileRecord.id).Nodup →
      List.Forall₂ forensicEqRaw l₁ l₂ → l₂.Perm l₃ →
      create_forensic_hash_data l₁ = create_forensic_hash_data l₃) := by
  refine ⟨fun l₁ l₂ hp hn => cfhd_perm_nodup hp hn,
    fun l₁ l₂ h => cfhd_forall₂ h,
    fun l i r' hi hne => cfhd_sensitive hi hne,
    fun l r => cfhd_membership l r,
    fun l₁ l₂ l₃ hn h12 h23 => ?_⟩
  rw [cfhd_forall₂ h12]
  refine cfhd_perm_nodup h23 ?_
  rw [← forall₂_ids_eq h12]
  exact hn

/-- C1 (witness): permutation invariance applied to two concrete records with
distinct ids. -/
theorem c1_witness :
    create_forensic_hash_data [baseRecord, secondRecord] =
      create_forensic_hash_data [secondRecord, baseRecord] :=
  c1_amended.1 [baseRecord, secondRecord] [secondRecord, baseRecord]
    (List.Perm.swap secondRecord baseRecord []) (by decide)

/-- C2 (counterexample): with an authenticated connection and a traversal that
finds zero items, `run_extraction` raises `No files found to extract` and the
job ends in status `error` — not in a successful terminal state with an empty
export as the claim says. -/
theorem c2_counterexample :
    (runExtraction none (fun _ b => b) process_file true (Except.ok []) none
      ⟨true, true, true⟩ ("forensic_metadata")).final.status = Status.error ∧
    (runExtraction none (fun _ b => b) process_file true (Except.ok []) none
      ⟨true, true, true⟩ ("forensic_metadata")).final.status ≠ Status.completed := by
  constructor
  · rfl
  · decide

/-- C2 (amended): when traversal finds zero items, `extract_folder` returns an
empty list and `run_extraction` treats that as a fault: the job transitions to
`error` with detail `No files found to extract`, no export is written and no
result metadata is published. -/
theorem c2_amended :
    ∀ (workers : Option Int) (schedule : Nat → List RawItem → List RawItem)
      (proc : RawItem → Option FileRecord) (fmts : FormatSel) (name : String),
      (∀ ws : Int, extract_folder_process ws schedule proc [] = []) ∧
      (runExtraction workers schedule proc true (Except.ok []) none fmts
        name).final.status = Status.error ∧
      (runExtraction workers schedule proc true (Except.ok []) none fmts
        name).final.error = some ("No files found to extract") ∧
      (runExtraction workers schedule proc true (Except.ok []) none fmts
        name).written = [] ∧
      (runExtraction workers schedule proc true (Except.ok []) none fmts
        name).final.metadata = none := by
  intro workers schedule proc fmts name
  exact ⟨fun ws => rfl, rfl, rfl, rfl, rfl⟩

/-- C3 (counterexample): a per-item failure is recorded internally, keyed by
the item id, but `extract_folder` returns only the success list: on a
one-item input whose processing fails the operation returns `[]` and the
failure sequence `["bad"]` computed by the loop is not part of the return
value, so the operation does not return both sequences as claimed. -/
theorem c3_counterexample :
    extract_folder_process 1 (fun _ b => b) procBad [badItem] = [] ∧
    (extractProcess 1 (fun _ b => b) procBad [badItem]).2 = [("bad")] := by
  constructor
  · rfl
  · rfl

/-- C3 (amended): the processing loop computes both a success sequence and a
failure sequence — every item is processed exactly once, a failing item
contributes its id (default `unknown`) to the failure sequence without
aborting the remaining items — but `extract_folder` returns only the success
component; the failure accumulator is dropped. -/
theorem c3_amended :
    (∀ (proc : RawItem → Option FileRecord) (files : List RawItem),
      processSequential proc files =
        (files.filterMap proc,
         (files.filter (fun f => (proc f).isNone)).map failureId)) ∧
    (∀ (proc : RawItem → Option FileRecord) (files : List RawItem),
      (processSequential proc files).1.length +
        (processSequential proc files).2.length = files.length) ∧
    (∀ (workers : Int) (schedule : Nat → List RawItem → List RawItem)
      (proc : RawItem → Option FileRecord) (files : List RawItem), files ≠ [] →
      extract_folder_process workers schedule proc files =
        (extractProcess workers schedule proc files).1) := by
  refine ⟨processSequential_eq, processSequential_length, ?_⟩
  intro workers schedule proc files hne
  rw [extract_folder_process, if_neg hne]

/-- C3 (witness): the returned-successes equation at a concrete non-empty
input. -/
theorem c3_witness :
    extract_folder_process 1 (fun _ b => b) process_file [emptyRawItem] =
      (extractProcess 1 (fun _ b => b) process_file [emptyRawItem]).1 :=
  c3_amended.2.2 1 (fun _ b => b) process_file [emptyRawItem] (by decide)

/-- C4 (counterexample): a stop request arriving after the CSV export started
(observed at the checkpoint following it, read index 6) does move the job to
`stopped`, but the CSV export file has already been written: an export file
was produced by a job that never reached `completed`, contradicting the
claim's `no export file is ever written by a job that does not reach
completed`. -/
theorem c4_counterexample :
    (runExtraction (some 1) (fun _ b => b) process_file true
      (Except.ok [emptyRawItem]) (some 6) ⟨true, true, true⟩
      ("forensic_metadata")).final.status = Status.stopped ∧
    (runExtraction (some 1) (fun _ b => b) process_file true
      (Except.ok [emptyRawItem]) (some 6) ⟨true, true, true⟩
      ("forensic_metadata")).final.status ≠ Status.completed ∧
    (runExtraction (some 1) (fun _ b => b) process_file true
      (Except.ok [emptyRawItem]) (some 6) ⟨true, true, true⟩
      ("forensic_metadata")).written = [ExportFormat.csv] := by
  refine ⟨rfl, ?_, rfl⟩
  decide

/-- The in-flight results of a stopped or failed run are discarded: nothing
written, no metadata, not completed. -/
def RunDiscarded (r : RunResult) : Prop :=
  r.written = [] ∧ r.final.metadata = none ∧ r.final.status ≠ Status.completed

/-- The run ended in `stopped` with the results discarded. -/
def RunStopped (r : RunResult) : Prop :=
  r.final.status = Status.stopped ∧ r.final.metadata = none

/-- C4 (amended): a stop request is honored at the next stop-event read: (1) a
stop issued before the export phase (read index ≤ 5) means no export file is
written, no result metadata is published and the job does not complete; (2) on
a run that reaches the export phase, a stop issued before the final read
(index ≤ 8) ends the job in `stopped` with the in-flight results discarded
(exports already written before the stop persist); (3) the `stop` endpoint is
legal exactly while running or paused, and resets the state (the run thread
then writes `stopped` at its next checkpoint). -/
theorem runExports_discarded (k : Nat) (fmts : FormatSel) (name : String)
    (md : List FileRecord) (hk : k ≤ 5) :
    runExports (some k) fmts name md = stoppedRes [] := by
  rw [runExports]
  by_cases h : k ≤ 4
  · rw [if_pos (by simp only [isStopAt, decide_eq_true_eq]; omega)]
  · rw [if_neg (by simp only [isStopAt, decide_eq_true_eq]; omega),
      if_pos (by simp only [isStopAt, decide_eq_true_eq]; omega)]

theorem runExports_stopped (k : Nat) (fmts : FormatSel) (name : String)
    (md : List FileRecord) (hk : k ≤ 8) :
    (runExports (some k) fmts name md).final.status = Status.stopped ∧
    (runExports (some k) fmts name md).final.metadata = none := by
  rw [runExports]
  repeat' split
  all_goals first
    | exact ⟨rfl, rfl⟩
    | (exfalso; simp only [isStopAt, decide_eq_true_eq] at *; omega)

theorem runFiles_discarded (workers : Option Int)
    (schedule : Nat → List RawItem → List RawItem)
    (proc : RawItem → Option FileRecord) (fmts : FormatSel) (name : String)
    (files : List RawItem) (k : Nat) (hk : k ≤ 5) :
    RunDiscarded (runFiles workers schedule proc (some k) fmts name files) := by
  rw [runFiles]
  by_cases h3 : isStopAt (some k) 3 = true
  · rw [if_pos h3]
    exact ⟨rfl, rfl, by decide⟩
  · rw [if_neg h3]
    by_cases hemp : extract_folder_process (effectiveMaxWorkers workers) schedule proc files = []
    · rw [if_pos hemp]
      exact ⟨failWith_written _ _ _ _ _, failWith_metadata _ _ _ _ _,
        failWith_status_ne _ _ _ _ _⟩
    · rw [if_neg hemp, runExports_discarded _ _ _ _ hk]
      exact ⟨rfl, rfl, by decide⟩

theorem runFiles_stopped (workers : Option Int)
    (schedule : Nat → List RawItem → List RawItem)
    (proc : RawItem → Option FileRecord) (fmts : FormatSel) (name : String)
    (files : List RawItem) (k : Nat)
    (hne : extract_folder_process (effectiveMaxWorkers workers) schedule proc files ≠ [])
    (hk : k ≤ 8) :
    (runFiles workers schedule proc (some k) fmts name files).final.status =
      Status.stopped ∧
    (runFiles workers schedule proc (some k) fmts name files).final.metadata = none := by
  rw [runFiles]
  by_cases h3 : isStopAt (some k) 3 = true
  · rw [if_pos h3]
    exact ⟨rfl, rfl⟩
  · rw [if_neg h3, if_neg hne]
    exact runExports_stopped _ _ _ _ hk

theorem c4_amended :
    (∀ (workers : Option Int) (schedule : Nat → List RawItem → List RawItem)
      (proc : RawItem → Option FileRecord) (authOk : Bool)
      (collected : Except String (List RawItem)) (fmts : FormatSel)
      (name : String) (k : Nat), k ≤ 5 →
      (runExtraction workers schedule proc authOk collected (some k) fmts
        name).written = [] ∧
      (runExtraction workers schedule proc authOk collected (some k) fmts
        name).final.metadata = none ∧
      (runExtraction workers schedule proc authOk collected (some k) fmts
        name).final.status ≠ Status.completed) ∧
    (∀ (workers : Option Int) (schedule : Nat → List RawItem → List RawItem)
      (proc : RawItem → Option FileRecord) (files : List RawItem)
      (fmts : FormatSel) (name : String) (k : Nat),
      extract_folder_process (effectiveMaxWorkers workers) schedule proc files ≠ [] →
      k ≤ 8 →
      (runExtraction workers schedule proc true (Except.ok files) (some k) fmts
        name).final.status = Status.stopped ∧
      (runExtraction workers schedule proc true (Except.ok files) (some k) fmts
        name).final.metadata = none) ∧
    (∀ st : JobState, st.status = Status.running ∨ st.status = Status.paused →
      stop_extraction st = Except.ok (resetState ("Extraction stopped by user"))) := by
  refine ⟨?_, ?_, ?_⟩
  · intro workers schedule proc authOk collected fmts name k hk
    show RunDiscarded (runExtraction workers schedule proc authOk collected (some k) fmts name)
    rw [runExtraction.eq_def]
    repeat' split
    all_goals first
      | exact ⟨rfl, rfl, by decide⟩
      | exact ⟨failWith_written _ _ _ _ _, failWith_metadata _ _ _ _ _,
          failWith_status_ne _ _ _ _ _⟩
      | exact runFiles_discarded _ _ _ _ _ _ _ hk
  · intro workers schedule proc files fmts name k hne hk
    rw [runExtraction.eq_def]
    by_cases h0 : isStopAt (some k) 0 = true
    · rw [if_pos h0]
      exact ⟨rfl, rfl⟩
    · rw [if_neg h0]
      by_cases h1 : isStopAt (some k) 1 = true
      · rw [if_pos h1]
        exact ⟨rfl, rfl⟩
      · rw [if_neg h1, if_neg (show ¬ ¬ (true = true) from fun h => h rfl)]
        by_cases h2 : isStopAt (some k) 2 = true
        · rw [if_pos h2]
          exact ⟨rfl, rfl⟩
        · rw [if_neg h2]
          exact runFiles_stopped _ _ _ _ _ _ _ hne hk
  · intro st hst
    rw [stop_extraction, if_pos hst]

/-- C4 (witness): the stop endpoint acting on a concrete paused job. -/
theorem c4_witness :
    stop_extraction pausedWitnessState =
      Except.ok (resetState ("Extraction stopped by user")) :=
  c4_amended.2.2 pausedWitnessState (Or.inr rfl)

/-- C5 (counterexample): with containers `A → B` and a leaf `L` listed by both
`A` and `B` (a containment graph with a cross-link), the recursive collection
terminates but yields the reachable leaf `L` twice, not exactly once. -/
theorem c5_counterexample :
    collectFuel cexStore 3 ("A") [] = some ([leafL, leafL], [("B"), ("A")]) ∧
    leafL ∈ leavesOf cexStore ("A") ∧ leafL ∈ leavesOf cexStore ("B") ∧
    [leafL, leafL].count leafL = 2 := by
  refine ⟨by decide, by decide, by decide, by decide⟩

/-- C5 (amended): (1) collection terminates — any fuel exceeding the number of
known unvisited containers yields a result; (2) a container already in the
visited set is skipped without error, yielding nothing and leaving the
visited set unchanged; (3) each reachable leaf is yielded exactly once
provided it is listed exactly once in exactly one container: with a
multi-parent leaf (see the counterexample) it is yielded once per listing. -/
theorem c5_amended :
    (∀ (s : Store) (fuel : Nat) (fid : String) (visited : List String),
      visMeasure s visited < fuel → (collectFuel s fuel fid visited).isSome) ∧
    (∀ (s : Store) (fuel : Nat) (fid : String) (visited : List String),
      fid ∈ visited → collectFuel s (fuel + 1) fid visited = some ([], visited)) ∧
    (∀ (s : Store) (fuel : Nat) (root : String) (out : List RawItem)
      (v' : List String) (r : RawItem) (c0 : String),
      collectFuel s fuel root [] = some (out, v') →
      (leavesOf s c0).count r = 1 →
      (∀ c, c ≠ c0 → (leavesOf s c).count r = 0) →
      Reaches s root c0 →
      out.count r = 1) := by
  refine ⟨fun s fuel fid visited h => collectFuel_enough s fuel fid visited h,
    ?_, ?_⟩
  · intro s fuel fid visited h
    rw [collectFuel, if_pos h]
  · intro s fuel root out v' r c0 hcol hone hzero hreach
    rcases collectFuel_spec s fuel root [] out v' hcol
      with ⟨hr, -, -⟩ | ⟨-, p, hp, -, hnd, -, hperm, -⟩
    · cases hr
    · have hc0v : c0 ∈ v' := reachable_visited hcol c0 hreach
      have hc0p : c0 ∈ p := by
        rw [hp] at hc0v
        simpa using hc0v
      rw [hperm.count_eq, count_flatMap_leaves]
      exact sum_single_one hnd hc0p hone hzero

/-- C5 (witness): skipping an already-visited container on the concrete
counterexample store. -/
theorem c5_witness :
    collectFuel cexStore 1 ("A") [("A")] = some ([], [("A")]) :=
  c5_amended.2.1 cexStore 0 ("A") [("A")] (by decide)

/-- C6: with no injected faults (indeed for every per-item processor), the
batched thread-pool path (clamped concurrency 4) and the sequential path
(concurrency 1) produce the same multiset of FileRecords and the same multiset
of failure ids, for every batch completion order: concurrency never changes
the content of any produced record. -/
theorem c6_theorem :
    ∀ (proc : RawItem → Option FileRecord)
      (schedule : Nat → List RawItem → List RawItem) (files : List RawItem),
      (∀ i b, (schedule i b).Perm b) →
      ((extractProcess 4 schedule proc files).1.Perm
        (extractProcess 1 schedule proc files).1 ∧
       (extractProcess 4 schedule proc files).2.Perm
        (extractProcess 1 schedule proc files).2) := by
  intro proc schedule files hs
  rw [extractProcess, extractProcess, if_neg (by decide), if_pos rfl,
    processParallel_eq, processSequential_eq]
  set batches := (chunkList (min 10 files.length) files).enum with hbatches
  have hflat : ((batches.map (fun bi => schedule bi.1 bi.2)).flatten).Perm files := by
    refine (flatten_scheduled_perm schedule hs batches).trans ?_
    rw [hbatches, List.enum_map_snd, chunkList_flatten]
  constructor
  · have h1 : batches.map (fun bi => (schedule bi.1 bi.2).filterMap proc) =
        (batches.map (fun bi => schedule bi.1 bi.2)).map (List.filterMap proc) := by
      rw [List.map_map]
      rfl
    rw [h1, filterMap_flatten_eq]
    exact hflat.filterMap proc
  · have h2 : batches.map (fun bi => ((schedule bi.1 bi.2).filter
        (fun f => (proc f).isNone)).map failureId) =
        (batches.map (fun bi => schedule bi.1 bi.2)).map
          (fun l => (l.filter (fun f => (proc f).isNone)).map failureId) := by
      rw [List.map_map]
      rfl
    rw [h2, filterMap_map_flatten_eq]
    exact (hflat.filter _).map failureId

/-- C6 (witness): the equivalence at a concrete two-item input with reversed
completion order. -/
theorem c6_witness :
    ((extractProcess 4 (fun _ b => b.reverse) process_file [badItem, emptyRawItem]).1.Perm
      (extractProcess 1 (fun _ b => b.reverse) process_file [badItem, emptyRawItem]).1 ∧
     (extractProcess 4 (fun _ b => b.reverse) process_file [badItem, emptyRawItem]).2.Perm
      (extractProcess 1 (fun _ b => b.reverse) process_file [badItem, emptyRawItem]).2) :=
  c6_theorem process_file (fun _ b => b.reverse) [badItem, emptyRawItem]
    (fun _ b => List.reverse_perm b)

/-- The record `extract_file_metadata` produces when every dictionary key is
absent: each field degrades to its fixed default. -/
def sentinelRecord : FileRecord :=
  { id := "N/A", name := "N/A", mime_type := "N/A", file_type := "",
    creation_date := none, modification_date := none, last_viewed_date := none,
    creation_date_raw := "N/A", modification_date_raw := "N/A",
    size_bytes := "0", size_formatted := "N/A", owner_email := "N/A",
    owner_name := "N/A", last_modifier_email := "N/A",
    last_modifier_name := "N/A", sharing_user_email := "N/A",
    full_path := "Unknown", share_link := "N/A", shared := false,
    trashed := false, starred := false, description := "",
    md5_checksum := "N/A", version := "N/A", permissions := "N/A",
    permission_count := 0, parents := "" }

/-- C7 (counterexample): normalization never fails, but the defaults are not
confined to the claimed sentinel set `{"N/A", empty string, false}`: a missing
name makes `full_path` degrade to `"Unknown"` and a missing size makes
`size_bytes` degrade to `"0"`. -/
theorem c7_counterexample :
    (extract_file_metadata emptyRawItem).full_path = ("Unknown") ∧
    (extract_file_metadata emptyRawItem).size_bytes = ("0") ∧
    ("Unknown") ≠ ("N/A") ∧ ("Unknown") ≠ ("") ∧
    ("0") ≠ ("N/A") ∧ ("0") ≠ ("") := by
  refine ⟨rfl, rfl, by decide, by decide, by decide, by decide⟩

/-- C7 (amended): `extract_file_metadata` is a total pure function — on the
item with every field missing it returns exactly the fixed sentinel record
(defaults `"N/A"`, empty string, `false`, plus `"0"` for `size_bytes`,
`"Unknown"` for the path and `null` for the formatted timestamps);
`_process_file` wraps it so a per-item outcome is always produced, and the
processing loop records any per-item failure keyed by the item id without
propagating it. -/
theorem c7_amended :
    extract_file_metadata emptyRawItem = sentinelRecord ∧
    (∀ file : RawItem, process_file file = some (extract_file_metadata file)) ∧
    (∀ (proc : RawItem → Option FileRecord) (files : List RawItem),
      (processSequential proc files).2 =
        (files.filter (fun f => (proc f).isNone)).map failureId) := by
  refine ⟨rfl, fun file => rfl, ?_⟩
  intro proc files
  rw [processSequential_eq]

/-- C8: the effective worker count of `MetadataExtractor.__init__` is always
in `[1, 4]`, defaults to 1 when the caller passes nothing, and equals
`max 1 (min k 4)` for an explicit request `k` (so an in-range request is
honored verbatim). -/
theorem c8_theorem :
    (∀ w : Option Int, 1 ≤ effectiveMaxWorkers w ∧ effectiveMaxWorkers w ≤ 4) ∧
    effectiveMaxWorkers none = 1 ∧
    (∀ k : Int, effectiveMaxWorkers (some k) = max 1 (min k 4)) := by
  refine ⟨?_, rfl, fun k => rfl⟩
  intro w
  constructor
  · exact le_max_left 1 _
  · exact max_le (by norm_num) (min_le_right _ 4)

/-- The C9 invariant: the result metadata field is populated only in
`completed`. -/
def MetadataInv (st : JobState) : Prop :=
  st.metadata ≠ none → st.status = Status.completed

theorem metadataInv_failWith (sf : Option Nat) (n : Nat) (e : String) (tot : Nat)
    (w : List ExportFormat) : MetadataInv (failWith sf n e tot w).final :=
  fun h => absurd (failWith_metadata sf n e tot w) h

theorem metadataInv_runExports (sf : Option Nat) (fmts : FormatSel) (name : String)
    (md : List FileRecord) : MetadataInv (runExports sf fmts name md).final := by
  rw [runExports]
  by_cases h4 : isStopAt sf 4 = true
  · rw [if_pos h4]
    exact fun h => absurd rfl h
  · rw [if_neg h4]
    by_cases h5 : isStopAt sf 5 = true
    · rw [if_pos h5]
      exact fun h => absurd rfl h
    · rw [if_neg h5]
      by_cases h6 : isStopAt sf 6 = true
      · rw [if_pos h6]
        exact fun h => absurd rfl h
      · rw [if_neg h6]
        by_cases h7 : isStopAt sf 7 = true
        · rw [if_pos h7]
          exact fun h => absurd rfl h
        · rw [if_neg h7]
          by_cases h8 : isStopAt sf 8 = true
          · rw [if_pos h8]
            exact fun h => absurd rfl h
          · rw [if_neg h8]
            exact fun _ => rfl

theorem metadataInv_runFiles (workers : Option Int)
    (schedule : Nat → List RawItem → List RawItem)
    (proc : RawItem → Option FileRecord) (sf : Option Nat) (fmts : FormatSel)
    (name : String) (files : List RawItem) :
    MetadataInv (runFiles workers schedule proc sf fmts name files).final := by
  rw [runFiles]
  by_cases h3 : isStopAt sf 3 = true
  · rw [if_pos h3]
    exact fun h => absurd rfl h
  · rw [if_neg h3]
    by_cases hemp : extract_folder_process (effectiveMaxWorkers workers) schedule proc files = []
    · rw [if_pos hemp]
      exact metadataInv_failWith _ _ _ _ _
    · rw [if_neg hemp]
      exact metadataInv_runExports _ _ _ _

theorem runExports_completed (sf : Option Nat) (fmts : FormatSel) (name : String)
    (md : List FileRecord)
    (h : (runExports sf fmts name md).final.status = Status.completed) :
    (runExports sf fmts name md).final.metadata = some md ∧
    (runExports sf fmts name md).written = selList fmts := by
  rw [runExports] at h ⊢
  by_cases h4 : isStopAt sf 4 = true
  · rw [if_pos h4] at h
    exact Status.noConfusion h
  · rw [if_neg h4] at h ⊢
    by_cases h5 : isStopAt sf 5 = true
    · rw [if_pos h5] at h
      exact Status.noConfusion h
    · rw [if_neg h5] at h ⊢
      by_cases h6 : isStopAt sf 6 = true
      · rw [if_pos h6] at h
        exact Status.noConfusion h
      · rw [if_neg h6] at h ⊢
        by_cases h7 : isStopAt sf 7 = true
        · rw [if_pos h7] at h
          exact Status.noConfusion h
        · rw [if_neg h7] at h ⊢
          by_cases h8 : isStopAt sf 8 = true
          · rw [if_pos h8] at h
            exact Status.noConfusion h
          · rw [if_neg h8]
            exact ⟨rfl, rfl⟩

theorem runFiles_completed (workers : Option Int)
    (schedule : Nat → List RawItem → List RawItem)
    (proc : RawItem → Option FileRecord) (sf : Option Nat) (fmts : FormatSel)
    (name : String) (files : List RawItem)
    (h : (runFiles workers schedule proc sf fmts name files).final.status =
      Status.completed) :
    extract_folder_process (effectiveMaxWorkers workers) schedule proc files ≠ [] ∧
    (runFiles workers schedule proc sf fmts name files).final.metadata =
      some (extract_folder_process (effectiveMaxWorkers workers) schedule proc files) ∧
    (runFiles workers schedule proc sf fmts name files).written = selList fmts := by
  rw [runFiles] at h ⊢
  by_cases h3 : isStopAt sf 3 = true
  · rw [if_pos h3] at h
    exact Status.noConfusion h
  · rw [if_neg h3] at h ⊢
    by_cases hemp : extract_folder_process (effectiveMaxWorkers workers) schedule proc files = []
    · rw [if_pos hemp] at h
      exact absurd h (failWith_status_ne _ _ _ _ _)
    · rw [if_neg hemp] at h ⊢
      obtain ⟨hm, hw⟩ := runExports_completed _ _ _ _ h
      exact ⟨hemp, hm, hw⟩

/-- C9: the result metadata is populated only in `completed`: the final state
of every `run_extraction` run satisfies the invariant, every endpoint
(`start`, `pause`, `resume`, `stop`) and `update_progress` preserve it, and a
run ends `completed` only when authentication succeeded, traversal returned a
file list whose extraction produced at least one record, and every requested
export was written (`written = selList fmts`). -/
theorem c9_theorem :
    (∀ (workers : Option Int) (schedule : Nat → List RawItem → List RawItem)
      (proc : RawItem → Option FileRecord) (authOk : Bool)
      (collected : Except String (List RawItem)) (stopFrom : Option Nat)
      (fmts : FormatSel) (name : String),
      MetadataInv (runExtraction workers schedule proc authOk collected stopFrom
        fmts name).final) ∧
    (∀ st st' : JobState, start_extraction st = Except.ok st' → MetadataInv st') ∧
    (∀ st st' : JobState, MetadataInv st → pause_extraction st = Except.ok st' →
      MetadataInv st') ∧
    (∀ st st' : JobState, MetadataInv st → resume_extraction st = Except.ok st' →
      MetadataInv st') ∧
    (∀ st st' : JobState, stop_extraction st = Except.ok st' → MetadataInv st') ∧
    (∀ (st : JobState) (p t : Nat) (m : String), MetadataInv st →
      MetadataInv (update_progress st p t m)) ∧
    (∀ (workers : Option Int) (schedule : Nat → List RawItem → List RawItem)
      (proc : RawItem → Option FileRecord) (authOk : Bool)
      (collected : Except String (List RawItem)) (stopFrom : Option Nat)
      (fmts : FormatSel) (name : String),
      (runExtraction workers schedule proc authOk collected stopFrom fmts
        name).final.status = Status.completed →
      authOk = true ∧
      (∃ files, collected = Except.ok files ∧
        extract_folder_process (effectiveMaxWorkers workers) schedule proc files ≠ [] ∧
        (runExtraction workers schedule proc authOk collected stopFrom fmts
          name).final.metadata =
          some (extract_folder_process (effectiveMaxWorkers workers) schedule proc
            files)) ∧
      (runExtraction workers schedule proc authOk collected stopFrom fmts
        name).written = selList fmts) := by
  have hInvRun : ∀ (workers : Option Int)
      (schedule : Nat → List RawItem → List RawItem)
      (proc : RawItem → Option FileRecord) (authOk : Bool)
      (collected : Except String (List RawItem)) (stopFrom : Option Nat)
      (fmts : FormatSel) (name : String),
      MetadataInv (runExtraction workers schedule proc authOk collected stopFrom
        fmts name).final := by
    intro workers schedule proc authOk collected stopFrom fmts name
    rw [runExtraction.eq_def]
    by_cases h0 : isStopAt stopFrom 0 = true
    · rw [if_pos h0]
      exact fun h => absurd rfl h
    · rw [if_neg h0]
      by_cases h1 : isStopAt stopFrom 1 = true
      · rw [if_pos h1]
        exact fun h => absurd rfl h
      · rw [if_neg h1]
        by_cases ha : ¬ authOk = true
        · rw [if_pos ha]
          exact metadataInv_failWith _ _ _ _ _
        · rw [if_neg ha]
          by_cases h2 : isStopAt stopFrom 2 = true
          · rw [if_pos h2]
            exact fun h => absurd rfl h
          · rw [if_neg h2]
            rcases collected with e | files
            · exact metadataInv_failWith _ _ _ _ _
            · exact metadataInv_runFiles _ _ _ _ _ _ _
  refine ⟨hInvRun, ?_, ?_, ?_, ?_, ?_, ?_⟩
  · intro st st' hok
    rw [start_extraction] at hok
    by_cases hrun : st.status = Status.running
    · rw [if_pos hrun] at hok
      exact Except.noConfusion hok
    · rw [if_neg hrun] at hok
      injection hok with hok
      rw [← hok]
      exact fun h => absurd rfl h
  · intro st st' hinv hok
    rw [pause_extraction] at hok
    by_cases hrun : st.status = Status.running
    · rw [if_pos hrun] at hok
      injection hok with hok
      rw [← hok]
      intro h
      have := hinv h
      rw [hrun] at this
      exact Status.noConfusion this
    · rw [if_neg hrun] at hok
      exact Except.noConfusion hok
  · intro st st' hinv hok
    rw [resume_extraction] at hok
    by_cases hp : st.status = Status.paused
    · rw [if_pos hp] at hok
      injection hok with hok
      rw [← hok]
      intro h
      have := hinv h
      rw [hp] at this
      exact Status.noConfusion this
    · rw [if_neg hp] at hok
      exact Except.noConfusion hok
  · intro st st' hok
    rw [stop_extraction] at hok
    by_cases hrp : st.status = Status.running ∨ st.status = Status.paused
    · rw [if_pos hrp] at hok
      injection hok with hok
      rw [← hok]
      exact fun h => absurd rfl h
    · rw [if_neg hrp] at hok
      exact Except.noConfusion hok
  · intro st p t m hinv
    exact fun h => hinv h
  · intro workers schedule proc authOk collected stopFrom fmts name hcomp
    rcases collected with e | files
    · exfalso
      rw [runExtraction.eq_def] at hcomp
      by_cases h0 : isStopAt stopFrom 0 = true
      · rw [if_pos h0] at hcomp
        exact absurd hcomp (by decide)
      · rw [if_neg h0] at hcomp
        by_cases h1 : isStopAt stopFrom 1 = true
        · rw [if_pos h1] at hcomp
          exact absurd hcomp (by decide)
        · rw [if_neg h1] at hcomp
          by_cases ha : ¬ authOk = true
          · rw [if_pos ha] at hcomp
            exact absurd hcomp (failWith_status_ne _ _ _ _ _)
          · rw [if_neg ha] at hcomp
            by_cases h2 : isStopAt stopFrom 2 = true
            · rw [if_pos h2] at hcomp
              exact absurd hcomp (by decide)
            · rw [if_neg h2] at hcomp
              exact absurd hcomp (failWith_status_ne _ _ _ _ _)
    · cases authOk with
      | false =>
        exfalso
        rw [runExtraction.eq_def] at hcomp
        by_cases h0 : isStopAt stopFrom 0 = true
        · rw [if_pos h0] at hcomp
          exact absurd hcomp (by decide)
        · rw [if_neg h0] at hcomp
          by_cases h1 : isStopAt stopFrom 1 = true
          · rw [if_pos h1] at hcomp
            exact absurd hcomp (by decide)
          · rw [if_neg h1, if_pos (show ¬ (false = true) from fun hh => Bool.noConfusion hh)] at hcomp
            exact absurd hcomp (failWith_status_ne _ _ _ _ _)
      | true =>
        rw [runExtraction.eq_def] at hcomp
        by_cases h0 : isStopAt stopFrom 0 = true
        · rw [if_pos h0] at hcomp
          exact absurd hcomp (by decide)
        · rw [if_neg h0] at hcomp
          by_cases h1 : isStopAt stopFrom 1 = true
          · rw [if_pos h1] at hcomp
            exact absurd hcomp (by decide)
          · rw [if_neg h1, if_neg (show ¬ ¬ (true = true) from fun hh => hh rfl)] at hcomp
            by_cases h2 : isStopAt stopFrom 2 = true
            · rw [if_pos h2] at hcomp
              exact absurd hcomp (by decide)
            · rw [if_neg h2] at hcomp
              have heq : runExtraction workers schedule proc true (Except.ok files)
                  stopFrom fmts name =
                  runFiles workers schedule proc stopFrom fmts name files := by
                rw [runExtraction.eq_def, if_neg h0, if_neg h1,
                  if_neg (show ¬ ¬ (true = true) from fun hh => hh rfl), if_neg h2]
              obtain ⟨hne, hm, hw⟩ :=
                runFiles_completed workers schedule proc stopFrom fmts name files hcomp
              refine ⟨rfl, ⟨files, rfl, hne, ?_⟩, ?_⟩
              · rw [heq]
                exact hm
              · rw [heq]
                exact hw

/-- C9 (witness): pausing a concrete running job preserves the invariant. -/
theorem c9_witness : MetadataInv pausedWitnessState :=
  c9_theorem.2.2.1 runningState pausedWitnessState (fun h => absurd rfl h) rfl

/-- C10: a `RawItem` with no `size` field yields `size_bytes = "0"` together
with `size_formatted = "N/A"`, and its forensic projection (the fingerprint
contribution) is identical to that of the same item with explicit size
`"0"`. -/
theorem c10_theorem :
    ∀ raw : RawItem, raw.size = none →
      (extract_file_metadata raw).size_bytes = ("0") ∧
      (extract_file_metadata raw).size_formatted = ("N/A") ∧
      mkForensicFile (extract_file_metadata raw) =
        mkForensicFile (extract_file_metadata { raw with size := some ("0") }) := by
  intro raw hsize
  obtain ⟨i1, n1, m1, ct, mt, vt, sz, ow, lm, su, wv, pm, pa, md, vr, sh, tr, st, de⟩ := raw
  cases hsize
  exact ⟨rfl, rfl, rfl⟩

/-- C10 (witness): the statement at the all-fields-missing item. -/
theorem c10_witness :
    (extract_file_metadata emptyRawItem).size_bytes = ("0") ∧
    (extract_file_metadata emptyRawItem).size_formatted = ("N/A") ∧
    mkForensicFile (extract_file_metadata emptyRawItem) =
      mkForensicFile (extract_file_metadata { emptyRawItem with size := some ("0") }) :=
  c10_theorem emptyRawItem rfl

end MetadataSniffer
